import Mathlib

/-!
# Verification of the Git source-control status/lock/history engine

Shallow embedding of `Source/GitSourceControl/Private/GitSourceControlUtils.cpp`
(and the declarations of `GitSourceControlUtils.h`).  Strings are modelled as
`List Char`; `TMap` as association lists where `Add` replaces an existing key;
the subprocess boundary (`RunCommandInternal` / `RunLFSCommand`) as
environment-supplied query results; timestamps (`FDateTime`) as integral
seconds.
-/

/-! ## Data model: the state enumerations (spec §3, used throughout the .cpp) -/

inductive EFileState where
  | Unset | Unknown | Unmodified | Added | Deleted | Modified
  | Renamed | Copied | Missing | Unmerged
deriving DecidableEq, Repr

inductive ETreeState where
  | Unset | Unmodified | Untracked | Ignored | Staged | Working | NotInRepo
deriving DecidableEq, Repr

inductive ELockState where
  | Unset | Unlockable | NotLocked | Locked | LockedOther
deriving DecidableEq, Repr

inductive ERemoteState where
  | Unset | UpToDate | NotLatest | NotAtHead
deriving DecidableEq, Repr

/-! ## FString primitives used by the parsers

`FString::FindLastChar` returns the index of the last occurrence of a
character; `RightChop n` drops the first `n` characters; `Left n` keeps the
first `n`; `TrimQuotes` strips one leading and one trailing double quote,
each independently if present. -/

/-- `FString::FindLastChar`: index of the last occurrence of `c`, if any. -/
def findLastCharIdx (c : Char) : List Char → Option Nat
  | [] => none
  | x :: xs =>
    match findLastCharIdx c xs with
    | some i => some (i + 1)
    | none => if x = c then some 0 else none

/-- `FString::TrimQuotes`: drop a leading `"` if present and a trailing `"`
if present (the trailing check requires the original length to exceed 1). -/
def trimQuotes (s : List Char) : List Char :=
  if s.length = 0 then s
  else
    let start := if s.head? = some '"' then 1 else 0
    let cnt := s.length - start - (if 1 < s.length ∧ s.getLast? = some '"' then 1 else 0)
    (s.drop start).take cnt

/-! ## §4.1 Status line parser -/

/-- `FilenameFromGitStatus`: extract the relative filename from one line of
`git status --porcelain` output. If the line contains a `>` (the rename
arrow), keep everything two characters past its last occurrence, otherwise
drop the two status characters and the separating space; finally trim
surrounding quotes. -/
def filenameFromGitStatus (s : List Char) : List Char :=
  match findLastCharIdx '>' s with
  | some i => trimQuotes (s.drop (i + 2))
  | none => trimQuotes (s.drop 3)

/-- Result of `FGitStatusParser`: the constructor always assigns `FileState`,
but on some inputs never assigns `TreeState`; `none` models the member left
uninitialized. -/
structure GitStatusParserResult where
  fileState : EFileState
  treeState : Option ETreeState
deriving DecidableEq, Repr

/-- `FGitStatusParser`: interpret the two leading status characters of a
porcelain status line. The constructor reads `InResult[0]` and `InResult[1]`
unconditionally, so a line shorter than two characters is outside its domain
(`none`). -/
def gitStatusParser (line : List Char) : Option GitStatusParserResult :=
  match line with
  | i :: w :: _ =>
    some (
      if (i = 'U' ∨ w = 'U') ∨ (i = 'A' ∧ w = 'A') ∨ (i = 'D' ∧ w = 'D') then
        -- "Unmerged" conflict cases: a "U" on either side, both added, or both deleted
        ⟨EFileState.Unmerged, some ETreeState.Working⟩
      else
        let t : Option ETreeState :=
          if i = ' ' then some ETreeState.Working
          else if w = ' ' then some ETreeState.Staged
          else none
        if i = '?' ∨ w = '?' then ⟨EFileState.Unknown, some ETreeState.Untracked⟩
        else if i = '!' ∨ w = '!' then ⟨EFileState.Unknown, some ETreeState.Ignored⟩
        else if i = 'A' then ⟨EFileState.Added, t⟩
        else if i = 'D' then ⟨EFileState.Deleted, t⟩
        else if w = 'D' then ⟨EFileState.Missing, t⟩
        else if i = 'M' ∨ w = 'M' then ⟨EFileState.Modified, t⟩
        else if i = 'R' then ⟨EFileState.Renamed, t⟩
        else if i = 'C' then ⟨EFileState.Copied, t⟩
        else ⟨EFileState.Unknown, t⟩)
  | _ => none

/-! ## §4.5 History parser -/

/-- `FCString::Atoi`: skip leading whitespace, accept an optional sign, then
consume decimal digits up to the first non-digit. -/
def atoi (s : List Char) : Int :=
  let s1 := s.dropWhile (fun c => c = ' ' ∨ c = '\t')
  match s1 with
  | '-' :: rest => - (Int.ofNat (digitsVal (rest.takeWhile Char.isDigit)))
  | '+' :: rest => Int.ofNat (digitsVal (rest.takeWhile Char.isDigit))
  | rest => Int.ofNat (digitsVal (rest.takeWhile Char.isDigit))
where
  /-- Decimal value of a digit string. -/
  digitsVal : List Char → Nat
    | [] => 0
    | ds => ds.foldl (fun acc d => acc * 10 + (d.toNat - '0'.toNat)) 0

/-- `LogStatusToString`: map the leading status character of a
`log --name-status` file line to a human action keyword. -/
def logStatusToString (c : Char) : List Char :=
  if c = ' ' then "unmodified".data
  else if c = 'M' then "modified".data
  else if c = 'A' then "add".data
  else if c = 'D' then "delete".data
  else if c = 'R' then "branch".data   -- renamed
  else if c = 'C' then "branch".data   -- copied
  else if c = 'T' then "type changed".data
  else if c = 'U' then "unmerged".data
  else if c = 'X' then "unknown".data
  else if c = 'B' then "broked pairing".data
  else []

/-- `FGitSourceControlRevision`, restricted to the fields `ParseLogResults`
writes. `branchSource` holds the index (into the emitted history) of the
revision a rename/copy record points back to, modelling the
`TSharedPtr` link. -/
structure GitSourceControlRevision where
  commitId : List Char := []
  shortCommitId : List Char := []
  userName : List Char := []
  date : Int := 0
  description : List Char := []
  action : List Char := []
  filename : List Char := []
  revisionNumber : Int := 0
  branchSource : Option Nat := none
deriving DecidableEq, Repr

/-- One step of the `ParseLogResults` line loop: `cur` is the revision being
accumulated, `hist` the records already pushed. A line starting with
`commit ` pushes the previous record (if one was started, i.e. its
`revisionNumber` was set to the in-progress marker `-1`) and begins a new
one. -/
def parseLogLine (st : GitSourceControlRevision × List GitSourceControlRevision)
    (line : List Char) : GitSourceControlRevision × List GitSourceControlRevision :=
  let cur := st.1
  let hist := st.2
  if "commit ".data.isPrefixOf line then
    let pushed := if cur.revisionNumber ≠ 0 then hist ++ [cur] else hist
    let commitId := line.drop 7
    ({ commitId := commitId, shortCommitId := commitId.take 8, revisionNumber := -1 }, pushed)
  else if "Author: ".data.isPrefixOf line then
    -- remove the '<email>' part of the user name
    let userNameEmail := line.drop 8
    match findLastCharIdx '<' userNameEmail with
    | some i => ({ cur with userName := userNameEmail.take (i - 1) }, hist)
    | none => (cur, hist)
  else if "Date:   ".data.isPrefixOf line then
    ({ cur with date := atoi (line.drop 8) }, hist)
  else if "    ".data.isPrefixOf line then
    ({ cur with description := cur.description ++ line.drop 4 ++ ['\n'] }, hist)
  else
    -- per-file action line; empty lines were culled before this loop runs
    match line with
    | [] => (cur, hist)
    | status :: _ =>
      let cur := { cur with action := logStatusToString status }
      match findLastCharIdx '\t' line with
      | some i => ({ cur with filename := line.drop (i + 1) }, hist)
      | none => (cur, hist)

/-- The numbering/linking pass at the end of `ParseLogResults`:
`RevisionNumber := Num - index` (the log is emitted newest-first, so the
most recent record gets the highest ordinal), and a record whose action is
`branch` that is not the last record is linked to the next record (the
next-older revision). `total` is the full history length, `i` the index of
the first record of `rest`. -/
def assignLogNumbers (total : Nat) (i : Nat) :
    List GitSourceControlRevision → List GitSourceControlRevision
  | [] => []
  | r :: rest =>
    { r with
      revisionNumber := (total : Int) - (i : Int)
      branchSource :=
        if r.action = "branch".data ∧ i < total - 1 then some (i + 1) else r.branchSource } ::
    assignLogNumbers total (i + 1) rest

/-- `ParseLogResults`: stream the log lines, push the last in-progress
record, then assign reverse-order ordinals and rename/copy links. -/
def parseLogResults (lines : List (List Char)) : List GitSourceControlRevision :=
  let st := lines.foldl parseLogLine ({}, [])
  let hist := if st.1.revisionNumber ≠ 0 then st.2 ++ [st.1] else st.2
  assignLogNumbers hist.length 0 hist

/-- A two-commit `log --name-status --pretty=medium --date=raw` output: the
newest commit renames `x.txt` to `y.txt`, the older one added `x.txt`
(empty lines are culled by the line splitter before parsing). -/
def exampleRenameLog : List (List Char) :=
  ["commit 97a4e7626681895e073aaefd68b8ac087db81b0b".data,
   "Author: Alice Doe <alice@example.com>".data,
   "Date:   1431718347 +0200".data,
   "    Rename x.txt to y.txt".data,
   ("R100\tx.txt\ty.txt").data,
   "commit 355f0df26ebd3888adbb558fd42bb8bd3e565000".data,
   "Author: Alice Doe <alice@example.com>".data,
   "Date:   1431368894 +0200".data,
   "    Add x.txt".data,
   ("A\tx.txt").data]

/-- The record `ParseLogResults` emits first (index 0, the newest commit) on
`exampleRenameLog`. -/
def exampleRev0 : GitSourceControlRevision :=
  { commitId := "97a4e7626681895e073aaefd68b8ac087db81b0b".data
    shortCommitId := "97a4e762".data
    userName := "Alice Doe".data
    date := 1431718347
    description := "Rename x.txt to y.txt\n".data
    action := "branch".data
    filename := "y.txt".data
    revisionNumber := 2
    branchSource := some 1 }

/-- A 120-element file list, for exercising the batch splitter. -/
def files120 : List (List Char) :=
  (List.range 120).map (fun i => (toString i).data)

/-! ## §3/§4.4 Aggregated per-file state and the merge guard -/

/-- `FGitState` (declared in `GitSourceControlState.h`): the new-state
fragment merged into the cache; every field defaults to `Unset` / empty, and
its use in `UpdateCachedStates` shows exactly these fields. -/
structure FGitState where
  fileState : EFileState := EFileState.Unset
  treeState : ETreeState := ETreeState.Unset
  lockState : ELockState := ELockState.Unset
  lockUser : List Char := []
  remoteState : ERemoteState := ERemoteState.Unset
  headBranch : List Char := []
deriving DecidableEq, Repr

/-- A cached entry held by the provider: its `State` plus the last-refresh
`TimeStamp` (seconds). -/
structure CachedFileState where
  state : FGitState := {}
  timeStamp : Int := 0
deriving DecidableEq, Repr

/-- Modelled from the spec: `FGitSourceControlState::IsUnknown()` is declared
in `GitSourceControlState.h`, which is not part of these sources; per the
spec's data model a cached entry is "Unknown" when its `FileState` is
`Unknown`. -/
def isUnknownState (s : FGitState) : Bool :=
  s.fileState = EFileState.Unknown

/-- Modelled from the spec: `FGitSourceControlState::CanAdd()` is declared in
`GitSourceControlState.h`, which is not part of these sources; per the spec a
cached entry is "eligible-to-add" when the file is untracked in the tree. -/
def canAddState (s : FGitState) : Bool :=
  s.treeState = ETreeState.Untracked

/-- The body of the `UpdateCachedStates` loop for one `(path, NewState)`
pair: merge the fragment `nw` into the cached entry `old`, field family by
field family, skipping fields the fragment leaves `Unset`. The merge guard:
a proposed transition to `Added` over an entry that is neither unknown nor
eligible-to-add aborts the whole update for this entry (`continue`). -/
def mergeGitState (now : Int) (old : CachedFileState) (nw : FGitState) : CachedFileState :=
  if nw.fileState ≠ EFileState.Unset ∧
      (nw.fileState = EFileState.Added ∧ ¬ isUnknownState old.state ∧ ¬ canAddState old.state) then
    old
  else
    let s0 := old.state
    let s1 := if nw.fileState ≠ EFileState.Unset then { s0 with fileState := nw.fileState } else s0
    let s2 := if nw.treeState ≠ ETreeState.Unset then { s1 with treeState := nw.treeState } else s1
    let s3 :=
      if nw.lockState ≠ ELockState.Unset then
        { s2 with lockState := nw.lockState, lockUser := nw.lockUser }
      else s2
    let s4 :=
      if nw.remoteState ≠ ERemoteState.Unset then
        { s3 with
          remoteState := nw.remoteState
          headBranch := if nw.remoteState = ERemoteState.UpToDate then [] else nw.headBranch }
      else s3
    { state := s4, timeStamp := now }

/-- `UpdateCachedStates`: fold every fragment of `results` into the
authoritative per-path cache (an association list; `GetStateInternal`
creates a fresh default entry for an unseen path). -/
def updateCachedStates (now : Int) (cache : List (List Char × CachedFileState))
    (results : List (List Char × FGitState)) : List (List Char × CachedFileState) :=
  results.foldl
    (fun c kv =>
      let old := ((c.lookup kv.1).getD {})
      let merged := mergeGitState now old kv.2
      if c.any (fun p => p.1 = kv.1) then
        c.map (fun p => if p.1 = kv.1 then (kv.1, merged) else p)
      else c ++ [(kv.1, merged)])
    cache

/-! ## §4.2 Lock cache (`GetAllLocks`) -/

/-- `TMap::Add`: insert or replace the binding for key `k`. -/
def mapAdd (m : List (List Char × List Char)) (k v : List Char) :
    List (List Char × List Char) :=
  if m.any (fun p => p.1 = k) then m.map (fun p => if p.1 = k then (k, v) else p)
  else m ++ [(k, v)]

/-- Build a lock map from parsed `(path, user)` lines in order. -/
def lockMapOf (entries : List (List Char × List Char)) : List (List Char × List Char) :=
  entries.foldl (fun m kv => mapAdd m kv.1 kv.2) []

/-- `FGitLockedFilesCache`: the process-wide lock cache — the path→user map
plus the single cache-wide `LastUpdated` stamp (seconds). -/
structure LockCacheState where
  lockedFiles : List (List Char × List Char) := []
  lastUpdated : Int := 0
deriving DecidableEq, Repr

/-- The environment `GetAllLocks` runs in: the current time, the (already
line-parsed) outcome of the three `RunLFSCommand("locks", …)` variants
(`none` models a failed command), whether the module singleton is still
reachable, and the configured lock user. -/
structure LocksEnv where
  now : Int
  remoteLocks : Option (List (List Char × List Char))
  cachedLocks : Option (List (List Char × List Char))
  localLocks : Option (List (List Char × List Char))
  moduleAvailable : Bool
  lockUser : List Char
deriving Repr

/-- What one `GetAllLocks` call produced: its boolean result, the `OutLocks`
out-parameter, the cache state it left behind, and how many lock-list
subprocess queries it issued. -/
structure GetAllLocksResult where
  result : Bool
  outLocks : List (List Char × List Char)
  cache : LockCacheState
  subprocessCalls : Nat
deriving DecidableEq, Repr

/-- `CacheLimit = FTimespan::FromSeconds(30)`. -/
def cacheLimitSeconds : Int := 30

/-- `GetAllLocks`: if the cache is force-invalidated or older than 30
seconds, query the remote lock list; on success replace the cache wholesale
and stamp the time. On failure fall back to the last-known remote locks
(keeping only other users' locks) merged with the local lock list (keeping
only the current user's); if that still fails — or the fast path was taken —
hand back the in-memory cache and report success. -/
def getAllLocks (env : LocksEnv) (cache : LockCacheState) (bInvalidateCache : Bool) :
    GetAllLocksResult :=
  let bCacheExpired := bInvalidateCache || (env.now - cache.lastUpdated > cacheLimitSeconds)
  if bCacheExpired then
    match env.remoteLocks with
    | some results =>
      let outLocks := lockMapOf results
      { result := true, outLocks := outLocks
        cache := { lockedFiles := outLocks, lastUpdated := env.now }, subprocessCalls := 1 }
    | none =>
      if ¬ env.moduleAvailable then
        -- bResult stays false; the final fallback returns the in-memory cache
        { result := true, outLocks := cache.lockedFiles, cache := cache, subprocessCalls := 1 }
      else
        let cachedOk := env.cachedLocks.isSome
        -- only update remote (other users') locks from the cached query
        let locks1 := (env.cachedLocks.getD []).foldl
          (fun m kv => if kv.2 ≠ env.lockUser then mapAdd m kv.1 kv.2 else m) []
        let localOk := env.localLocks.isSome
        -- only update our own locks from the local query
        let locks2 := (env.localLocks.getD []).foldl
          (fun m kv => if kv.2 = env.lockUser then mapAdd m kv.1 kv.2 else m) locks1
        if cachedOk && localOk then
          { result := true, outLocks := locks2, cache := cache, subprocessCalls := 3 }
        else
          { result := true, outLocks := cache.lockedFiles, cache := cache, subprocessCalls := 3 }
  else
    -- fast path: bResult stays false, so OutLocks is filled from the cache
    { result := true, outLocks := cache.lockedFiles, cache := cache, subprocessCalls := 0 }

/-! ## Batch splitter (`RunCommand` / `RunCommit`) -/

/-- `GitSourceControlConstants::MaxFilesPerBatch`. -/
def maxFilesPerBatch : Nat := 50

/-- The batching loop shared by `RunCommand` and `RunCommit`: successive
chunks of at most `MaxFilesPerBatch` files, in input order. -/
def makeBatches (fs : List (List Char)) : List (List (List Char)) :=
  if fs = [] then []
  else fs.take maxFilesPerBatch :: makeBatches (fs.drop maxFilesPerBatch)
termination_by fs.length
decreasing_by
  rename_i h
  have : fs.length ≠ 0 := fun hl => h (List.eq_nil_of_length_eq_zero hl)
  simp only [List.length_drop, maxFilesPerBatch]
  omega

/-- One `RunCommandInternal` invocation: the git subcommand, its parameters
and the file list passed on the command line. -/
structure IssuedCommand where
  command : List Char
  parameters : List (List Char)
  files : List (List Char)
deriving DecidableEq, Repr

/-- The sequence of internal command invocations `RunCommand` performs:
a single call when the file list fits, otherwise one call per batch. -/
def runCommandPlan (command : List Char) (params : List (List Char))
    (files : List (List Char)) : List IssuedCommand :=
  if maxFilesPerBatch < files.length then
    (makeBatches files).map (fun b => ⟨command, params, b⟩)
  else [⟨command, params, files⟩]

/-- The sequence of internal command invocations `RunCommit` performs: when
batching is needed, the first batch is staged and committed plainly and each
later batch is staged and committed with `--amend` appended to the caller's
parameters. -/
def runCommitPlan (params : List (List Char)) (files : List (List Char)) :
    List IssuedCommand :=
  let addParams := ["-A".data]
  if maxFilesPerBatch < files.length then
    let firstBatch := files.take maxFilesPerBatch
    let rest := files.drop maxFilesPerBatch
    let amendParams := params ++ ["--amend".data]
    [⟨"add".data, addParams, firstBatch⟩, ⟨"commit".data, params, firstBatch⟩] ++
      (makeBatches rest).foldr
        (fun b acc =>
          ⟨"add".data, addParams, b⟩ :: ⟨"commit".data, amendParams, b⟩ :: acc) []
  else
    [⟨"add".data, addParams, files⟩, ⟨"commit".data, params, files⟩]

/-! ## §4.4 State aggregation for explicit paths (`ParseFileStatusResult`) -/

/-- The per-file outcome of the explicit-path loop of
`ParseFileStatusResult` (the conflict-metadata side lookup for `Unmerged`
files touches other fields and is not modelled here). -/
structure FileClassification where
  fileState : EFileState
  treeState : Option ETreeState
  lockState : ELockState
  lockUser : List Char
deriving DecidableEq, Repr

/-- The lock-annotation tail of the explicit-path loop: decide
`LockState`/`LockUser` for one file from the lock map, the configured user
and the lockable-extension check, leaving the already-classified
`FileState`/`TreeState` pair untouched. -/
def annotateLock (usingLfsLocking : Bool) (lockable : List Char → Bool)
    (locks : List (List Char × List Char)) (lfsUserName : List Char)
    (file : List Char) (fs : EFileState × Option ETreeState) : FileClassification :=
  if ¬ usingLfsLocking then
    ⟨fs.1, fs.2, ELockState.Unlockable, []⟩
  else if lockable file then
    match locks.lookup file with
    | some user =>
      if lfsUserName = user then ⟨fs.1, fs.2, ELockState.Locked, user⟩
      else ⟨fs.1, fs.2, ELockState.LockedOther, user⟩
    | none => ⟨fs.1, fs.2, ELockState.NotLocked, []⟩
  else ⟨fs.1, fs.2, ELockState.Unlockable, []⟩

/-- The body of the explicit-path loop of `ParseFileStatusResult` for one
file: classify from its status line when present (partiality of
`FGitStatusParser` propagates), otherwise from its presence on disk; then
annotate the lock state from the lock map. `fileExists` stands for
`FPaths::FileExists`, `locks` for the `GetAllLocks` result, `lfsUserName`
for `Provider.GetLockUser()`. -/
def classifyExplicitFile (usingLfsLocking : Bool) (lockable : List Char → Bool)
    (locks : List (List Char × List Char)) (lfsUserName : List Char)
    (statusMap : List (List Char × List Char)) (fileExists : List Char → Bool)
    (file : List Char) : Option FileClassification :=
  let base : Option (EFileState × Option ETreeState) :=
    match statusMap.lookup file with
    | some line =>
      -- file found in status results; only the case for "changed" files
      (gitStatusParser line).map (fun r => (r.fileState, r.treeState))
    | none =>
      if fileExists file then
        -- not in status but on disk: usually means the file is unchanged
        some (EFileState.Unknown, some ETreeState.Unmodified)
      else
        -- newly created content, no file on disk until first save
        some (EFileState.Unknown, some ETreeState.NotInRepo)
  base.map (annotateLock usingLfsLocking lockable locks lfsUserName file)

/-! ## §7 Redundant error filter (`RemoveRedundantErrors`) -/

/-- Does `needle` start `hay`? -/
def listStartsWith : List Char → List Char → Bool
  | [], _ => true
  | _ :: _, [] => false
  | a :: as, b :: bs => a = b && listStartsWith as bs

/-- Does `needle` occur contiguously inside `hay`? -/
def listContainsSub (needle : List Char) : List Char → Bool
  | [] => listStartsWith needle []
  | hay@(_ :: t) => listStartsWith needle hay || listContainsSub needle t

/-- `FString::Contains` with its default `ESearchCase::IgnoreCase`: substring
search after lowercasing both sides; the empty needle is never found. -/
def fstringContains (hay needle : List Char) : Bool :=
  needle ≠ [] && listContainsSub (needle.map Char.toLower) (hay.map Char.toLower)

/-- The result/status slice of `FGitSourceControlCommand` that
`RemoveRedundantErrors` reads and writes: `ResultInfo.InfoMessages`,
`ResultInfo.ErrorMessages` and `bCommandSuccessful`. -/
structure GitCommandResultInfo where
  infoMessages : List (List Char)
  errorMessages : List (List Char)
  bCommandSuccessful : Bool
deriving DecidableEq, Repr

/-- `RemoveRedundantErrors`: append every error line containing the filter
to the informational list, remove them all from the error list, and flip a
previously unsuccessful command to successful when the reclassification
emptied its error list. -/
def removeRedundantErrors (cmd : GitCommandResultInfo) (filter : List Char) :
    GitCommandResultInfo :=
  let bFoundRedundantError := cmd.errorMessages.any (fun e => fstringContains e filter)
  let info := cmd.infoMessages ++ cmd.errorMessages.filter (fun e => fstringContains e filter)
  let errs := cmd.errorMessages.filter (fun e => ! fstringContains e filter)
  let success :=
    if bFoundRedundantError ∧ errs = [] ∧ ¬ cmd.bCommandSuccessful then true
    else cmd.bCommandSuccessful
  ⟨info, errs, success⟩

/-! ### Lemmas about `findLastCharIdx` -/

theorem findLastCharIdx_eq_none (c : Char) (s : List Char) (h : c ∉ s) :
    findLastCharIdx c s = none := by
  induction s with
  | nil => rfl
  | cons x xs ih =>
    simp only [List.mem_cons, not_or] at h
    simp [findLastCharIdx, ih h.2, Ne.symm h.1]

theorem findLastCharIdx_append_right (c : Char) (xs ys : List Char) (h : c ∉ ys) :
    findLastCharIdx c (xs ++ ys) = findLastCharIdx c xs := by
  induction xs with
  | nil => simpa using findLastCharIdx_eq_none c ys h
  | cons x xs ih => simp [findLastCharIdx, ih]

theorem findLastCharIdx_append_last (c : Char) (xs : List Char) :
    findLastCharIdx c (xs ++ [c]) = some xs.length := by
  induction xs with
  | nil => simp [findLastCharIdx]
  | cons x xs ih => simp [findLastCharIdx, ih]

/-! ### Lemmas about `makeBatches` -/

theorem makeBatches_nil : makeBatches [] = [] := by
  rw [makeBatches]
  rfl

theorem makeBatches_cons (fs : List (List Char)) (h : fs ≠ []) :
    makeBatches fs = fs.take maxFilesPerBatch :: makeBatches (fs.drop maxFilesPerBatch) := by
  rw [makeBatches]
  simp [h]

theorem makeBatches_120 (fs : List (List Char)) (h : fs.length = 120) :
    makeBatches fs = [fs.take 50, (fs.drop 50).take 50, (fs.drop 50).drop 50] := by
  have h1 : fs ≠ [] := by intro he; rw [he] at h; simp at h
  have h2 : fs.drop 50 ≠ [] := by
    intro he
    have := congrArg List.length he
    simp [h] at this
  have h3 : (fs.drop 50).drop 50 ≠ [] := by
    intro he
    have := congrArg List.length he
    simp [h] at this
  have h4 : ((fs.drop 50).drop 50).drop 50 = [] := by
    apply List.drop_eq_nil_of_le
    simp [h]
  have h5 : ((fs.drop 50).drop 50).take 50 = (fs.drop 50).drop 50 := by
    apply List.take_of_length_le
    simp [h]
  rw [makeBatches_cons fs h1]
  simp only [maxFilesPerBatch]
  rw [makeBatches_cons _ h2]
  simp only [maxFilesPerBatch]
  rw [makeBatches_cons _ h3]
  simp only [maxFilesPerBatch, h4, makeBatches_nil, h5]

/-! ### Lemmas about `assignLogNumbers` -/

theorem assignLogNumbers_getElem (total : Nat) (l : List GitSourceControlRevision) :
    ∀ (i j : Nat), (assignLogNumbers total i l)[j]? = (l[j]?).map (fun r =>
      { r with
        revisionNumber := (total : Int) - ((i + j : Nat) : Int)
        branchSource := if r.action = "branch".data ∧ i + j < total - 1
          then some (i + j + 1) else r.branchSource }) := by
  induction l with
  | nil => intro i j; simp [assignLogNumbers]
  | cons r rest ih =>
    intro i j
    cases j with
    | zero => simp [assignLogNumbers]
    | succ j' =>
      simp only [assignLogNumbers, List.getElem?_cons_succ]
      rw [ih (i + 1) j']
      have he : i + 1 + j' = i + (j' + 1) := by omega
      rw [he]

theorem assignLogNumbers_length (total i : Nat) (l : List GitSourceControlRevision) :
    (assignLogNumbers total i l).length = l.length := by
  induction l generalizing i with
  | nil => rfl
  | cons r rest ih => simp [assignLogNumbers, ih]

theorem assignLogNumbers_spec (l : List GitSourceControlRevision) (j : Nat)
    (r : GitSourceControlRevision)
    (hr : (assignLogNumbers l.length 0 l)[j]? = some r) :
    r.revisionNumber = ((assignLogNumbers l.length 0 l).length : Int) - (j : Int) ∧
    (r.action = "branch".data → j + 1 < (assignLogNumbers l.length 0 l).length →
      r.branchSource = some (j + 1)) := by
  rw [assignLogNumbers_getElem] at hr
  rw [assignLogNumbers_length]
  cases h0 : l[j]? with
  | none => rw [h0] at hr; simp at hr
  | some r0 =>
    rw [h0] at hr
    simp only [Option.map_some'] at hr
    have hr' := Option.some.inj hr
    subst hr'
    refine ⟨by simp, ?_⟩
    intro hact hlt
    have hact0 : r0.action = "branch".data := hact
    have hj : 0 + j < l.length - 1 := by omega
    show (if r0.action = "branch".data ∧ 0 + j < l.length - 1
        then some (0 + j + 1) else r0.branchSource) = some (j + 1)
    rw [if_pos ⟨hact0, hj⟩]
    simp

/-! ### Lemmas about `getAllLocks` -/

theorem getAllLocks_fastPath (env : LocksEnv) (cache : LockCacheState)
    (h : ¬ env.now - cache.lastUpdated > cacheLimitSeconds) :
    getAllLocks env cache false = ⟨true, cache.lockedFiles, cache, 0⟩ := by
  simp [getAllLocks, h]

theorem getAllLocks_remoteSuccess (env : LocksEnv) (cache : LockCacheState) (b : Bool)
    (r : List (List Char × List Char)) (hr : env.remoteLocks = some r)
    (hexp : b = true ∨ env.now - cache.lastUpdated > cacheLimitSeconds) :
    getAllLocks env cache b = ⟨true, lockMapOf r, ⟨lockMapOf r, env.now⟩, 1⟩ := by
  have hcond : (b || decide (env.now - cache.lastUpdated > cacheLimitSeconds)) = true := by
    rcases hexp with h | h
    · simp [h]
    · simp [h]
  simp only [getAllLocks]
  rw [if_pos hcond]
  simp [hr, lockMapOf]

theorem getAllLocks_calls_pos_cache (env : LocksEnv) (cache : LockCacheState) (b : Bool)
    (r : List (List Char × List Char)) (hr : env.remoteLocks = some r)
    (hcalls : 1 ≤ (getAllLocks env cache b).subprocessCalls) :
    (getAllLocks env cache b).cache = ⟨lockMapOf r, env.now⟩ := by
  by_cases hexp : (b || decide (env.now - cache.lastUpdated > cacheLimitSeconds)) = true
  · have hb : b = true ∨ env.now - cache.lastUpdated > cacheLimitSeconds := by
      rcases Bool.or_eq_true_iff.mp hexp with h | h
      · exact Or.inl h
      · exact Or.inr (by simpa using h)
    rw [getAllLocks_remoteSuccess env cache b r hr hb]
  · exfalso
    have : getAllLocks env cache b = ⟨true, cache.lockedFiles, cache, 0⟩ := by
      simp only [getAllLocks]
      rw [if_neg hexp]
    rw [this] at hcalls
    simp at hcalls

/-! ## Claim theorems -/

/-- C2: a status line whose index or worktree character is `U`, or whose
index and worktree characters are both `A` or both `D`, is classified
`FileState = Unmerged`, `TreeState = Working`; this conflict rule fires
before every other classification rule (so an `AA` line never reaches the
plain-`A` Added rule). -/
theorem gitStatusParser_conflict (i w : Char) (rest : List Char)
    (h : (i = 'U' ∨ w = 'U') ∨ (i = 'A' ∧ w = 'A') ∨ (i = 'D' ∧ w = 'D')) :
    gitStatusParser (i :: w :: rest) =
      some ⟨EFileState.Unmerged, some ETreeState.Working⟩ := by
  simp only [gitStatusParser]
  rw [if_pos h]

theorem gitStatusParser_conflict_witness :
    gitStatusParser ('A' :: 'A' :: " f".data) =
      some ⟨EFileState.Unmerged, some ETreeState.Working⟩ :=
  gitStatusParser_conflict 'A' 'A' " f".data (by decide)

/-- C10: the status parser reads the first two characters of its input
unconditionally, so lines shorter than two characters are outside its
domain; and a line such as `MM path` (both characters set, no conflict, no
`?`/`!`) is assigned `FileState = Modified` while `TreeState` is never
assigned (left uninitialized, modelled as `none`). -/
theorem gitStatusParser_partial_domain :
    (∀ line : List Char, line.length < 2 → gitStatusParser line = none) ∧
    (∀ (i w : Char) (rest : List Char),
      i ≠ ' ' → w ≠ ' ' →
      ¬((i = 'U' ∨ w = 'U') ∨ (i = 'A' ∧ w = 'A') ∨ (i = 'D' ∧ w = 'D')) →
      ¬(i = '?' ∨ w = '?') → ¬(i = '!' ∨ w = '!') →
      (gitStatusParser (i :: w :: rest)).map (fun r => r.treeState) = some none) ∧
    gitStatusParser "MM path".data = some ⟨EFileState.Modified, none⟩ := by
  refine ⟨?_, ?_, by decide⟩
  · intro line h
    cases line with
    | nil => rfl
    | cons a t =>
      cases t with
      | nil => rfl
      | cons b t' =>
        simp only [List.length_cons] at h
        omega
  · intro i w rest hi hw hconf hq hb
    simp only [gitStatusParser]
    rw [if_neg hconf]
    simp only [if_neg hi, if_neg hw, if_neg hq, if_neg hb]
    repeat' split
    all_goals rfl

theorem gitStatusParser_partial_domain_witness :
    gitStatusParser "M".data = none ∧
      (gitStatusParser ('M' :: 'M' :: " path".data)).map (fun r => r.treeState) = some none ∧
      gitStatusParser "MM path".data = some ⟨EFileState.Modified, none⟩ :=
  ⟨gitStatusParser_partial_domain.1 "M".data (by decide),
   gitStatusParser_partial_domain.2.1 'M' 'M' " path".data (by decide) (by decide)
     (by decide) (by decide) (by decide),
   gitStatusParser_partial_domain.2.2⟩

/-- C8: path extraction from a status line — with a rename arrow the path is
everything after the arrow (quotes trimmed), otherwise everything after the
two status characters and the separating space; in particular
`R  a/b.txt -> a/c.txt` yields `a/c.txt`. -/
theorem filenameFromGitStatus_spec :
    (∀ s : List Char, '>' ∉ s → filenameFromGitStatus s = trimQuotes (s.drop 3)) ∧
    (∀ pre p : List Char, '>' ∉ p →
      filenameFromGitStatus (pre ++ '-' :: '>' :: ' ' :: p) = trimQuotes p) ∧
    filenameFromGitStatus "R  a/b.txt -> a/c.txt".data = "a/c.txt".data := by
  refine ⟨?_, ?_, by decide⟩
  · intro s h
    simp only [filenameFromGitStatus, findLastCharIdx_eq_none '>' s h]
  · intro pre p h
    have harrow : pre ++ '-' :: '>' :: ' ' :: p = (pre ++ ['-'] ++ ['>']) ++ (' ' :: p) := by
      simp
    have hfind : findLastCharIdx '>' (pre ++ '-' :: '>' :: ' ' :: p)
        = some (pre.length + 1) := by
      rw [harrow, findLastCharIdx_append_right '>' _ (' ' :: p) (by simp [h]),
        findLastCharIdx_append_last]
      simp
    have hdrop : (pre ++ '-' :: '>' :: ' ' :: p).drop (pre.length + 1 + 2) = p := by
      have : pre ++ '-' :: '>' :: ' ' :: p = (pre ++ ['-', '>', ' ']) ++ p := by simp
      rw [this]
      have hlen : (pre ++ ['-', '>', ' ']).length = pre.length + 1 + 2 := by simp
      rw [← hlen, List.drop_left]
    simp only [filenameFromGitStatus, hfind, hdrop]

theorem filenameFromGitStatus_spec_witness :
    filenameFromGitStatus "?? foo.txt".data = "foo.txt".data ∧
      filenameFromGitStatus ("R  ".data ++ '-' :: '>' :: ' ' :: "a/c.txt".data)
        = "a/c.txt".data ∧
      filenameFromGitStatus "R  a/b.txt -> a/c.txt".data = "a/c.txt".data :=
  ⟨filenameFromGitStatus_spec.1 "?? foo.txt".data (by decide),
   filenameFromGitStatus_spec.2.1 "R  ".data "a/c.txt".data (by decide),
   filenameFromGitStatus_spec.2.2⟩

/-- C1: the merge guard of `UpdateCachedStates` — when a fragment proposes
`FileState = Added` for a path whose cached entry is neither unknown nor
eligible-to-add, the cached entry's `FileState` is left unchanged by the
merge; in particular an entry cached as `Modified` is never overwritten to
`Added`. -/
theorem mergeGitState_added_guard (now : Int) (old : CachedFileState) (nw : FGitState)
    (hAdd : nw.fileState = EFileState.Added)
    (hUnk : isUnknownState old.state = false)
    (hCanAdd : canAddState old.state = false) :
    (mergeGitState now old nw).state.fileState = old.state.fileState := by
  have hne : nw.fileState ≠ EFileState.Unset := by rw [hAdd]; decide
  simp only [mergeGitState]
  rw [if_pos ⟨hne, hAdd, by simp [hUnk], by simp [hCanAdd]⟩]

theorem mergeGitState_added_guard_witness :
    (mergeGitState 5
        ⟨⟨EFileState.Modified, ETreeState.Working, ELockState.NotLocked, [],
          ERemoteState.UpToDate, []⟩, 0⟩
        ⟨EFileState.Added, ETreeState.Staged, ELockState.Unset, [],
          ERemoteState.Unset, []⟩).state.fileState = EFileState.Modified :=
  mergeGitState_added_guard 5
    ⟨⟨EFileState.Modified, ETreeState.Working, ELockState.NotLocked, [],
      ERemoteState.UpToDate, []⟩, 0⟩
    ⟨EFileState.Added, ETreeState.Staged, ELockState.Unset, [],
      ERemoteState.Unset, []⟩
    rfl (by decide) (by decide)

/-- C9: the redundant-error reclassification — every error line containing
the benign filter substring is appended to the informational list and
removed from the error list; the success flag changes exactly when at least
one line was reclassified, the error list is empty afterwards and the
command was previously unsuccessful (and then it changes to `true`); a pass
that reclassifies nothing never changes the success flag. -/
theorem removeRedundantErrors_spec (cmd : GitCommandResultInfo) (filter : List Char) :
    (∀ e ∈ cmd.errorMessages, fstringContains e filter = true →
      e ∈ (removeRedundantErrors cmd filter).infoMessages ∧
        e ∉ (removeRedundantErrors cmd filter).errorMessages) ∧
    ((removeRedundantErrors cmd filter).bCommandSuccessful ≠ cmd.bCommandSuccessful ↔
      ((cmd.errorMessages.any fun e => fstringContains e filter) = true ∧
        (removeRedundantErrors cmd filter).errorMessages = [] ∧
        cmd.bCommandSuccessful = false)) ∧
    ((removeRedundantErrors cmd filter).bCommandSuccessful ≠ cmd.bCommandSuccessful →
      (removeRedundantErrors cmd filter).bCommandSuccessful = true) ∧
    ((∀ e ∈ cmd.errorMessages, fstringContains e filter = false) →
      (removeRedundantErrors cmd filter).bCommandSuccessful = cmd.bCommandSuccessful) := by
  refine ⟨?_, ?_, ?_, ?_⟩
  · intro e he hf
    constructor
    · simp only [removeRedundantErrors, List.mem_append]
      exact Or.inr (List.mem_filter.mpr ⟨he, hf⟩)
    · simp only [removeRedundantErrors]
      intro hmem
      have := (List.mem_filter.mp hmem).2
      simp [hf] at this
  · simp only [removeRedundantErrors]
    split
    · rename_i hcond
      obtain ⟨h1, h2, h3⟩ := hcond
      simp only [ne_eq]
      constructor
      · intro _
        exact ⟨h1, h2, by simpa using h3⟩
      · intro _
        simp only [Bool.not_eq_true] at h3
        simp [h3]
    · rename_i hcond
      push_neg at hcond
      simp only [ne_eq, not_true_eq_false, false_iff, not_and]
      intro h1 h2 h3
      exact absurd (hcond h1 h2) (by simp [h3])
  · simp only [removeRedundantErrors]
    split
    · intro _; rfl
    · intro h; exact absurd rfl h
  · intro hall
    simp only [removeRedundantErrors]
    have hany : (cmd.errorMessages.any fun e => fstringContains e filter) = false := by
      simp only [List.any_eq_false]
      intro e he
      simp [hall e he]
    rw [if_neg]
    intro hcond
    rw [hany] at hcond
    exact absurd hcond.1 (by simp)

theorem removeRedundantErrors_spec_witness :
    ("error: lock exists".data ∈
        (removeRedundantErrors ⟨[], ["error: lock exists".data], false⟩ "lock".data).infoMessages ∧
      "error: lock exists".data ∉
        (removeRedundantErrors ⟨[], ["error: lock exists".data], false⟩ "lock".data).errorMessages) ∧
    (removeRedundantErrors ⟨[], ["error: lock exists".data], false⟩ "lock".data).bCommandSuccessful
      = true :=
  ⟨(removeRedundantErrors_spec ⟨[], ["error: lock exists".data], false⟩ "lock".data).1
      "error: lock exists".data (by decide) (by decide),
   (removeRedundantErrors_spec ⟨[], ["error: lock exists".data], false⟩ "lock".data).2.2.1
      (by decide)⟩

/-- C7: in the explicit-path loop of `ParseFileStatusResult`, a path absent
from the status map is classified `FileState = Unknown` with
`TreeState = Unmodified` when the file exists on disk, and
`TreeState = NotInRepo` when it does not. -/
theorem classifyExplicitFile_absent (usingLfsLocking : Bool)
    (lockable : List Char → Bool) (locks : List (List Char × List Char))
    (lfsUserName : List Char) (statusMap : List (List Char × List Char))
    (fileExists : List Char → Bool) (file : List Char)
    (habs : statusMap.lookup file = none) :
    classifyExplicitFile usingLfsLocking lockable locks lfsUserName statusMap fileExists file
      = some (annotateLock usingLfsLocking lockable locks lfsUserName file
          (EFileState.Unknown,
            some (if fileExists file then ETreeState.Unmodified else ETreeState.NotInRepo))) ∧
    ∀ fs, (annotateLock usingLfsLocking lockable locks lfsUserName file fs).fileState = fs.1 ∧
      (annotateLock usingLfsLocking lockable locks lfsUserName file fs).treeState = fs.2 := by
  constructor
  · simp only [classifyExplicitFile, habs]
    cases h : fileExists file <;> simp [h]
  · intro fs
    simp only [annotateLock]
    split
    · exact ⟨rfl, rfl⟩
    · split
      · split
        · split <;> exact ⟨rfl, rfl⟩
        · exact ⟨rfl, rfl⟩
      · exact ⟨rfl, rfl⟩

theorem classifyExplicitFile_absent_witness :
    classifyExplicitFile true (fun _ => true) [] "me".data [] (fun _ => false) "C.uasset".data
      = some (annotateLock true (fun _ => true) [] "me".data "C.uasset".data
          (EFileState.Unknown, some ETreeState.NotInRepo)) ∧
    (classifyExplicitFile true (fun _ => true) [] "me".data [] (fun _ => false) "C.uasset".data)
      = some ⟨EFileState.Unknown, some ETreeState.NotInRepo, ELockState.NotLocked, []⟩ :=
  ⟨((classifyExplicitFile_absent true (fun _ => true) [] "me".data [] (fun _ => false)
      "C.uasset".data (by decide)).1), by decide⟩

/-- C4: `GetAllLocks` never reports failure — and in particular when the
remote lock query and both fallback queries (`--cached` and `--local`) all
fail, it returns the existing in-memory lock cache and reports success. -/
theorem getAllLocks_degrade_never_fail :
    (∀ (env : LocksEnv) (cache : LockCacheState) (b : Bool),
      (getAllLocks env cache b).result = true) ∧
    (∀ (env : LocksEnv) (cache : LockCacheState) (b : Bool),
      env.remoteLocks = none → env.cachedLocks = none → env.localLocks = none →
      (getAllLocks env cache b).result = true ∧
        (getAllLocks env cache b).outLocks = cache.lockedFiles ∧
        (getAllLocks env cache b).cache = cache) := by
  constructor
  · intro env cache b
    simp only [getAllLocks]
    split
    · cases henv : env.remoteLocks with
      | some r => simp [henv]
      | none =>
        simp only [henv]
        split
        · rfl
        · split <;> rfl
    · rfl
  · intro env cache b hr hc hl
    simp only [getAllLocks, hr, hc, hl]
    split
    · split
      · exact ⟨rfl, rfl, rfl⟩
      · simp
    · exact ⟨rfl, rfl, rfl⟩

theorem getAllLocks_degrade_never_fail_witness :
    (getAllLocks ⟨100, none, none, none, true, "me".data⟩ ⟨[("f".data, "me".data)], 0⟩ true).result
        = true ∧
      (getAllLocks ⟨100, none, none, none, true, "me".data⟩
          ⟨[("f".data, "me".data)], 0⟩ true).outLocks = [("f".data, "me".data)] ∧
      (getAllLocks ⟨100, none, none, none, true, "me".data⟩
          ⟨[("f".data, "me".data)], 0⟩ true).cache = ⟨[("f".data, "me".data)], 0⟩ := by
  have h := (getAllLocks_degrade_never_fail.2
    ⟨100, none, none, none, true, "me".data⟩ ⟨[("f".data, "me".data)], 0⟩ true) rfl rfl rfl
  exact ⟨h.1, h.2.1, h.2.2⟩

/-- C3: TTL of the lock cache — a refresh without force-invalidation less
than 30 seconds after the last refresh returns the cached map unchanged
with no subprocess query; a refresh more than 30 seconds after the last
refresh queries the remote lock list and, on success, fully replaces the
cache and stamps the refresh time; concretely, after a successful remote
refresh, a second non-forced call within 30 seconds is the query-free fast
path. -/
theorem getAllLocks_ttl (env : LocksEnv) (cache : LockCacheState) :
    (env.now - cache.lastUpdated < cacheLimitSeconds →
      getAllLocks env cache false = ⟨true, cache.lockedFiles, cache, 0⟩) ∧
    (env.now - cache.lastUpdated > cacheLimitSeconds →
      1 ≤ (getAllLocks env cache false).subprocessCalls ∧
      ∀ r, env.remoteLocks = some r →
        getAllLocks env cache false = ⟨true, lockMapOf r, ⟨lockMapOf r, env.now⟩, 1⟩) ∧
    (∀ (envPrev : LocksEnv) (cachePrev : LockCacheState) (bPrev : Bool)
        (r : List (List Char × List Char)),
      envPrev.remoteLocks = some r →
      1 ≤ (getAllLocks envPrev cachePrev bPrev).subprocessCalls →
      env.now - envPrev.now < cacheLimitSeconds →
      getAllLocks env (getAllLocks envPrev cachePrev bPrev).cache false =
        ⟨true, (getAllLocks envPrev cachePrev bPrev).cache.lockedFiles,
          (getAllLocks envPrev cachePrev bPrev).cache, 0⟩) := by
  refine ⟨?_, ?_, ?_⟩
  · intro h
    exact getAllLocks_fastPath env cache (by omega)
  · intro h
    constructor
    · cases hr : env.remoteLocks with
      | some r =>
        rw [getAllLocks_remoteSuccess env cache false r hr (Or.inr h)]
      | none =>
        simp only [getAllLocks]
        rw [if_pos (by simp [h])]
        simp only [hr]
        split
        · simp
        · split <;> simp
    · intro r hr
      exact getAllLocks_remoteSuccess env cache false r hr (Or.inr h)
  · intro envPrev cachePrev bPrev r hr hcalls hlt
    have hc := getAllLocks_calls_pos_cache envPrev cachePrev bPrev r hr hcalls
    rw [hc]
    exact getAllLocks_fastPath env ⟨lockMapOf r, envPrev.now⟩ (by simp; omega)

theorem getAllLocks_ttl_witness :
    getAllLocks ⟨10, some [("a".data, "u".data)], none, none, true, "me".data⟩
        ⟨[("old".data, "o".data)], 0⟩ false
      = ⟨true, [("old".data, "o".data)], ⟨[("old".data, "o".data)], 0⟩, 0⟩ ∧
    getAllLocks ⟨40, some [("a".data, "u".data)], none, none, true, "me".data⟩
        ⟨[("old".data, "o".data)], 0⟩ false
      = ⟨true, lockMapOf [("a".data, "u".data)],
          ⟨lockMapOf [("a".data, "u".data)], 40⟩, 1⟩ :=
  ⟨(getAllLocks_ttl ⟨10, some [("a".data, "u".data)], none, none, true, "me".data⟩
      ⟨[("old".data, "o".data)], 0⟩).1 (by decide),
   ((getAllLocks_ttl ⟨40, some [("a".data, "u".data)], none, none, true, "me".data⟩
      ⟨[("old".data, "o".data)], 0⟩).2.1 (by decide)).2 [("a".data, "u".data)] rfl⟩

/-- C5: after `ParseLogResults` finishes, ordinals run opposite to emission
order — the record at index `j` gets `RevisionNumber = length - j`, so the
earliest-emitted (most recent) record gets the highest ordinal and the last
gets 1 — and a record classified `branch` that has a next record in
emission order is linked to it as its origin; in particular the two-commit
rename log yields ordinals `[2, 1]` with the newest revision's origin link
pointing at the older one. -/
theorem parseLogResults_ordinals :
    (∀ (lines : List (List Char)) (j : Nat) (r : GitSourceControlRevision),
      (parseLogResults lines)[j]? = some r →
      r.revisionNumber = ((parseLogResults lines).length : Int) - (j : Int) ∧
      (r.action = "branch".data → j + 1 < (parseLogResults lines).length →
        r.branchSource = some (j + 1))) ∧
    (parseLogResults exampleRenameLog).map (fun r => r.revisionNumber) = [2, 1] ∧
    (parseLogResults exampleRenameLog).map (fun r => r.branchSource) = [some 1, none] := by
  refine ⟨?_, by rfl, by rfl⟩
  intro lines j r hr
  simp only [parseLogResults] at hr ⊢
  exact assignLogNumbers_spec _ j r hr

theorem parseLogResults_ordinals_witness :
    exampleRev0.revisionNumber = ((parseLogResults exampleRenameLog).length : Int) - (0 : Int) ∧
      exampleRev0.branchSource = some (0 + 1) :=
  have h := parseLogResults_ordinals.1 exampleRenameLog 0 exampleRev0 (by rfl)
  ⟨h.1, h.2 (by rfl) (by decide)⟩

/-- C6: the batch splitter cuts a 120-file list into batches of 50/50/20 in
input order, and the commit-by-batches plan issues exactly one initial
commit (the caller's parameters, no `--amend`) for the first batch followed
by exactly two commits carrying `--amend` for the remaining batches. -/
theorem runCommitPlan_batching (params : List (List Char)) (files : List (List Char))
    (hlen : files.length = 120) (hp : "--amend".data ∉ params) :
    (makeBatches files).map List.length = [50, 50, 20] ∧
    (makeBatches files).flatten = files ∧
    (runCommitPlan params files).filter (fun c => c.command = "commit".data) =
      [⟨"commit".data, params, files.take 50⟩,
       ⟨"commit".data, params ++ ["--amend".data], (files.drop 50).take 50⟩,
       ⟨"commit".data, params ++ ["--amend".data], (files.drop 50).drop 50⟩] ∧
    "--amend".data ∉ params ∧ "--amend".data ∈ params ++ ["--amend".data] := by
  have hb := makeBatches_120 files hlen
  refine ⟨?_, ?_, ?_, hp, by simp⟩
  · rw [hb]
    simp [List.length_take, List.length_drop, hlen]
  · rw [hb]
    simp only [List.flatten_cons, List.flatten_nil, List.append_nil]
    rw [List.take_append_drop, List.take_append_drop]
  · have hcond : maxFilesPerBatch < files.length := by
      rw [hlen]
      norm_num [maxFilesPerBatch]
    have h1 : files ≠ [] := by intro he; rw [he] at hlen; simp at hlen
    have hrest : makeBatches (files.drop maxFilesPerBatch)
        = [(files.drop 50).take 50, (files.drop 50).drop 50] := by
      have hmc := makeBatches_cons files h1
      rw [hmc] at hb
      simp only [maxFilesPerBatch] at hb ⊢
      exact (List.cons.injEq _ _ _ _ ▸ hb).2
    simp only [runCommitPlan]
    rw [if_pos hcond, hrest]
    rfl

theorem runCommitPlan_batching_witness :
    (makeBatches files120).map List.length = [50, 50, 20] ∧
      ((runCommitPlan [] files120).filter
        (fun c => c.command = "commit".data)).length = 3 := by
  have h := runCommitPlan_batching [] files120 (by rfl) (by decide)
  refine ⟨h.1, ?_⟩
  rw [h.2.2.1]
  rfl
